import Mathlib

/-!
Verification development for the Obsidian Link-Injection-Redirect plugin
(src/unnamed/part_001).  Strings are modelled as `List Char`; JavaScript
`Record<string, v>` objects are modelled as association lists with unique
keys in insertion order.  All functions are executable; loops whose
progress is not structural carry an explicit fuel argument that the
wrappers instantiate with `text.length + 1`, which is always sufficient
because every iteration of the corresponding source loop consumes at
least one character of the text.
-/

/-- Convert a string literal to the character-list representation. -/
def s2l (s : String) : List Char := s.data

/-- The character `{` (written via its code to keep literals plain). -/
def lbrace : Char := '\x7b'

/-- The character `}`. -/
def rbrace : Char := '\x7d'

/-- Lower-case a character list; models JavaScript `toLowerCase()` on the
ASCII range used by dictionary keys and property names. -/
def lower (l : List Char) : List Char := l.map Char.toLower

/-- The reserved sentinel `@@IGNORE@@` marking a key as suppressed. -/
def ignoreSentinel : List Char := s2l "@@IGNORE@@"

/-- Open-in preference for external links (part_001 lines 16-19): two
independently toggleable presentation channels. -/
structure OpenInPreference where
  webviewer : Bool
  external : Bool
deriving DecidableEq

/-- State of the current document as seen by `replacePatterns`
(part_001 lines 472-496): either there is no valid markdown file, or the
file has no frontmatter, or the frontmatter property map is available.
Property values are modelled by their `String(value)` stringification. -/
inductive FileState where
  | noValidFile
  | noFrontmatter
  | frontmatter (props : List (List Char × List Char))
deriving DecidableEq

/-- The resolution context: the plugin settings reachable from `this`
plus the current document state.  `profileLinkReplacements` is
`getCurrentProfile()?.linkReplacements` (the profile's name and vault
path play no role in resolution). -/
structure Ctx where
  defaultLinkReplacements : List (List Char × List Char)
  profileLinkReplacements : Option (List (List Char × List Char))
  openInPreferences : List (List Char × OpenInPreference)
  invalidCharReplacement : List Char
  fileState : FileState

/-- First value in an association list whose key matches exactly;
models JavaScript property access `record[key]`. -/
def recordGet : List (List Char × List Char) → List Char → Option (List Char)
  | [], _ => none
  | e :: r, q => if e.1 = q then some e.2 else recordGet r q

/-- The keys of a record, in insertion order. -/
def recordKeys (r : List (List Char × List Char)) : List (List Char) :=
  r.map Prod.fst

/-- JavaScript object update `record[k] = v`: replace in place on key
collision, append otherwise. -/
def recordSet (r : List (List Char × List Char)) (k v : List Char) :
    List (List Char × List Char) :=
  if r.any (fun e => e.1 == k) then
    r.map (fun e => if e.1 = k then (k, v) else e)
  else r ++ [(k, v)]

/-- The object spread `{...base, ...overlay}`: keys of `base` in their
order (with overridden values), then new keys of `overlay` appended. -/
def spreadMerge (base overlay : List (List Char × List Char)) :
    List (List Char × List Char) :=
  overlay.foldl (fun acc e => recordSet acc e.1 e.2) base

/-- getActiveLinkReplacements (part_001 lines 127-143): merge defaults
with the profile override (override wins), then drop every entry whose
value is the `@@IGNORE@@` sentinel. -/
def getActiveLinkReplacements (ctx : Ctx) : List (List Char × List Char) :=
  let merged := spreadMerge ctx.defaultLinkReplacements
    (ctx.profileLinkReplacements.getD [])
  merged.filter (fun e => !(e.2 == ignoreSentinel))

/-- Case-insensitive association-list lookup:
`Object.keys(table).find(k => k.toLowerCase() === key.toLowerCase())`
followed by indexing, as used throughout part_001 — the value of the
first entry whose lower-cased key equals the lower-cased query. -/
def findCI {α : Type} (table : List (List Char × α)) (key : List Char) :
    Option α :=
  match table with
  | [] => none
  | e :: r => if lower e.1 == lower key then some e.2 else findCI r key

/-- isKeyIgnored (part_001 lines 150-160): case-insensitive lookup in the
current profile's overrides, comparing the value with the sentinel. -/
def isKeyIgnored (ctx : Ctx) (key : List Char) : Bool :=
  match ctx.profileLinkReplacements with
  | none => false
  | some reps =>
    match findCI reps key with
    | some v => v == ignoreSentinel
    | none => false

/-- getOpenInPreference (part_001 lines 167-175): case-insensitive lookup
with default `{webviewer: true, external: true}`. -/
def getOpenInPreference (ctx : Ctx) (key : List Char) : OpenInPreference :=
  (findCI ctx.openInPreferences key).getD ⟨true, true⟩

/-- getMergedOpenInPreference (part_001 lines 220-231): AND of the
per-key preferences over the key list, starting from both-true. -/
def getMergedOpenInPreference (ctx : Ctx) (keys : List (List Char)) :
    OpenInPreference :=
  keys.foldl
    (fun acc key =>
      ⟨acc.webviewer && (getOpenInPreference ctx key).webviewer,
       acc.external && (getOpenInPreference ctx key).external⟩)
    ⟨true, true⟩

/-- Whether a character list contains the two-character separator `,,`
(JavaScript `content.includes(',,')`). -/
def containsSep : List Char → Bool
  | c1 :: c2 :: rest => (c1 == ',' && c2 == ',') || containsSep (c2 :: rest)
  | _ => false

/-- Whether a character list contains the two-character sequence `${`
(JavaScript `trimmed.includes('${')`). -/
def containsDollarBrace : List Char → Bool
  | c1 :: c2 :: rest =>
    (c1 == '$' && c2 == lbrace) || containsDollarBrace (c2 :: rest)
  | _ => false

/-- Whether a character list starts with `L:`
(JavaScript `key.startsWith('L:')`). -/
def startsWithLColon : List Char → Bool
  | c1 :: c2 :: _ => c1 == 'L' && c2 == ':'
  | _ => false

/-- JavaScript `String.prototype.trim`: drop whitespace on both ends. -/
def trim (l : List Char) : List Char :=
  ((l.dropWhile Char.isWhitespace).reverse.dropWhile Char.isWhitespace).reverse

/-- Split on the literal separator `,,` (JavaScript `content.split(',,')`,
leftmost non-overlapping occurrences). -/
def splitSep : List Char → List (List Char)
  | [] => [[]]
  | [c] => [[c]]
  | c1 :: c2 :: rest =>
    if c1 = ',' ∧ c2 = ',' then [] :: splitSep rest
    else
      match splitSep (c2 :: rest) with
      | [] => [[c1]]
      | h :: t => (c1 :: h) :: t

/-- The inner while loop shared by hasOrPattern and the balanced-brace
extraction (part_001 lines 246-259 and 295-308): consume characters while
tracking the brace depth (`depth` is the current `braceCount`), appending
every character to the content except the final closing brace.  `closed`
records whether the depth returned to zero before the end of the text;
`rest` is the text after the span (empty when the span never closed). -/
structure SpanScan where
  content : List Char
  rest : List Char
  closed : Bool
deriving DecidableEq

def collectSpan : List Char → Nat → SpanScan
  | [], _ => ⟨[], [], false⟩
  | c :: rest, depth =>
    if c = lbrace then
      let s := collectSpan rest (depth + 1)
      ⟨c :: s.content, s.rest, s.closed⟩
    else if c = rbrace then
      if depth = 1 then ⟨[], rest, true⟩
      else
        let s := collectSpan rest (depth - 1)
        ⟨c :: s.content, s.rest, s.closed⟩
    else
      let s := collectSpan rest depth
      ⟨c :: s.content, s.rest, s.closed⟩

/-- A top-level span found by extractBalancedPatterns: the full matched
text `${...}` and its raw content.  For a closed span the matched
substring `text.substring(startIndex, i)` is exactly
`'$' :: '{' :: content ++ ['}']`, because the inner loop appends every
consumed character to the content except the final closing brace.  The
`index` field of the source is not consumed downstream and is omitted. -/
structure ScanPat where
  matchText : List Char
  content : List Char
deriving DecidableEq

/-- The outer loop of extractBalancedPatterns (part_001 lines 282-320):
emit each closed top-level span; a span that never closes is not emitted
and ends the scan (the index has reached the end of the text).  Also
returns the content of such a final unclosed span, which
`extractBalancedPatterns` discards but the `hasOrPattern` loop inspects. -/
def scanSpans : Nat → List Char → List ScanPat × Option (List Char)
  | 0, _ => ([], none)
  | _ + 1, [] => ([], none)
  | _ + 1, [_] => ([], none)
  | fuel + 1, c1 :: c2 :: rest =>
    if c1 = '$' ∧ c2 = lbrace then
      let s := collectSpan rest 1
      if s.closed then
        let r := scanSpans fuel s.rest
        (⟨'$' :: lbrace :: (s.content ++ [rbrace]), s.content⟩ :: r.1, r.2)
      else ([], some s.content)
    else scanSpans fuel (c2 :: rest)

/-- extractBalancedPatterns (part_001 lines 282-320). -/
def extractBalancedPatterns (t : List Char) : List ScanPat :=
  (scanSpans (t.length + 1) t).1

/-- Content of the trailing unclosed span, if the scan ends inside one. -/
def openTail (t : List Char) : Option (List Char) :=
  (scanSpans (t.length + 1) t).2

/-- The loop of hasOrPattern (part_001 lines 237-270): scan spans left to
right and return true as soon as one span's content contains `,,`.  The
source checks the content even when the span never closed. -/
def hasOrPatternAux : Nat → List Char → Bool
  | 0, _ => false
  | _ + 1, [] => false
  | _ + 1, [_] => false
  | fuel + 1, c1 :: c2 :: rest =>
    if c1 = '$' ∧ c2 = lbrace then
      let s := collectSpan rest 1
      if containsSep s.content then true else hasOrPatternAux fuel s.rest
    else hasOrPatternAux fuel (c2 :: rest)

/-- hasOrPattern (part_001 lines 237-270). -/
def hasOrPattern (t : List Char) : Bool :=
  hasOrPatternAux (t.length + 1) t

/-- Replace each of the invalid filename characters `/`, `\`, `:` by the
configured replacement string (part_001 lines 503-507 and 521-525);
applied to values only when the link is internal. -/
def sanitizeValue (ctx : Ctx) (v : List Char) : List Char :=
  v.flatMap (fun c =>
    if c = '/' ∨ c = '\\' ∨ c = ':' then ctx.invalidCharReplacement else [c])

/-- Split the text after `${` at the first closing brace, as matched by
the regex `\$\x7b([^\x7d]+)\x7d`: the first component is the run of
non-`}` characters, the second is the text after the `}` when one
exists. -/
def breakAtBrace : List Char → List Char × Option (List Char)
  | [] => ([], none)
  | c :: rest =>
    if c = rbrace then ([], some rest)
    else
      let r := breakAtBrace rest
      (c :: r.1, r.2)

/-- The replacement callback of replacePatterns (part_001 lines 466-531)
applied to one matched key, threading the `hasPropertyError` flag.  On a
property lookup with frontmatter present but the property absent, the
match is replaced by the empty string and the flag is raised; with no
valid markdown file or no frontmatter the match is echoed verbatim.
Dictionary lookups echo the match verbatim when the key is unknown. -/
def applyKey (ctx : Ctx) (isInternalLink : Bool) (key : List Char)
    (flag : Bool) : List Char × Bool :=
  if startsWithLColon key then
    let propertyKey := key.drop 2
    match ctx.fileState with
    | .noValidFile => ('$' :: lbrace :: (key ++ [rbrace]), flag)
    | .noFrontmatter => ('$' :: lbrace :: (key ++ [rbrace]), flag)
    | .frontmatter props =>
      match findCI props propertyKey with
      | none => ([], true)
      | some v =>
        (if isInternalLink then sanitizeValue ctx v else v, flag)
  else
    match findCI (getActiveLinkReplacements ctx) key with
    | some v => (if isInternalLink then sanitizeValue ctx v else v, flag)
    | none => ('$' :: lbrace :: (key ++ [rbrace]), flag)

/-- The left-to-right sweep of `text.replace(/\$\x7b([^\x7d]+)\x7d/g, cb)`
(part_001 line 466): at `$` `{` take the characters up to the next `}`;
when that content is non-empty it is a match and scanning resumes after
the closing brace, otherwise the engine advances one character. -/
def replaceLoop (ctx : Ctx) (isInternalLink : Bool) :
    Nat → List Char → Bool → List Char × Bool
  | 0, t, flag => (t, flag)
  | _ + 1, [], flag => ([], flag)
  | _ + 1, [c], flag => ([c], flag)
  | fuel + 1, c1 :: c2 :: rest, flag =>
    if c1 = '$' ∧ c2 = lbrace then
      match breakAtBrace rest with
      | (key, some restAfter) =>
        if key = [] then
          let r := replaceLoop ctx isInternalLink fuel (c2 :: rest) flag
          (c1 :: r.1, r.2)
        else
          let rep := applyKey ctx isInternalLink key flag
          let r := replaceLoop ctx isInternalLink fuel restAfter rep.2
          (rep.1 ++ r.1, r.2)
      | (_, none) =>
        let r := replaceLoop ctx isInternalLink fuel (c2 :: rest) flag
        (c1 :: r.1, r.2)
    else
      let r := replaceLoop ctx isInternalLink fuel (c2 :: rest) flag
      (c1 :: r.1, r.2)

/-- replacePatterns (part_001 lines 453-534), returning the replaced text
together with the `hasPropertyError` flag after the call.  The flag
starts from `false`, modelling the reset at the start of the method. -/
def replacePatterns (ctx : Ctx) (text : List Char) (isInternalLink : Bool) :
    List Char × Bool :=
  replaceLoop ctx isInternalLink (text.length + 1) text false

/-- replacePatterns viewed as acting on the mutable `hasPropertyError`
field: the method assigns `false` to the field on entry (part_001
line 455), so the prior flag value is discarded. -/
def replacePatternsFlag (ctx : Ctx) (text : List Char)
    (isInternalLink : Bool) (_priorFlag : Bool) : List Char × Bool :=
  replaceLoop ctx isInternalLink (text.length + 1) text false

/-- The contents of successive matches of `\$\x7b([^\x7d]+)\x7d` in a
text, as enumerated by `matchAll` (part_001 lines 199-200). -/
def matchContents : Nat → List Char → List (List Char)
  | 0, _ => []
  | _ + 1, [] => []
  | _ + 1, [_] => []
  | fuel + 1, c1 :: c2 :: rest =>
    if c1 = '$' ∧ c2 = lbrace then
      match breakAtBrace rest with
      | (key, some restAfter) =>
        if key = [] then matchContents fuel (c2 :: rest)
        else key :: matchContents fuel restAfter
      | (_, none) => matchContents fuel (c2 :: rest)
    else matchContents fuel (c2 :: rest)

/-- extractKeysFromPattern (part_001 lines 197-214): regular `${KEY}`
contents, skipping `L:` property patterns and `,,` OR patterns,
trimmed. -/
def extractKeysFromPattern (text : List Char) : List (List Char) :=
  (matchContents (text.length + 1) text).filterMap (fun content =>
    if startsWithLColon content then none
    else if containsSep content then none
    else some (trim content))

/-- Replace every occurrence of the literal pattern in the text, leftmost
first and non-overlapping, resuming after each replacement: the effect of
`text.replace(new RegExp(escapedPattern, 'g'), option)` (part_001
lines 392-393), where the escaping makes the pattern literal and the
options substituted here contain no special `$`-escape sequences. -/
def replaceAllAux : Nat → List Char → List Char → List Char → List Char
  | 0, _, _, t => t
  | _ + 1, _, _, [] => []
  | fuel + 1, pat, rep, c :: rest =>
    if pat ≠ [] ∧ pat.isPrefixOf (c :: rest) then
      rep ++ replaceAllAux fuel pat rep ((c :: rest).drop pat.length)
    else c :: replaceAllAux fuel pat rep rest

def replaceAll (pat rep t : List Char) : List Char :=
  replaceAllAux (t.length + 1) pat rep t

/-- Bare-word grammar sugar (part_001 lines 346-356): trim the option and
wrap it as `${option}` unless it already contains `${`. -/
def processOption (opt : List Char) : List Char :=
  let trimmed := trim opt
  if containsDollarBrace trimmed then trimmed
  else '$' :: lbrace :: (trimmed ++ [rbrace])

/-- generateCombinations (part_001 lines 362-377): cartesian product of
the option groups; the first group is the outermost loop. -/
def generateCombinations : List (List (List Char)) → List (List (List Char))
  | [] => [[]]
  | [g] => g.map (fun item => [item])
  | g :: gs =>
    g.flatMap (fun item =>
      (generateCombinations gs).map (fun combination => item :: combination))

/-- One candidate produced by generateOrPatternChoices (part_001
line 279): display label, fully substituted url, display value, and the
dictionary keys referenced by the combination's options. -/
structure Choice where
  label : List Char
  url : List Char
  value : List Char
  keys : List (List Char)
deriving DecidableEq

/-- generateOrPatternChoices (part_001 lines 279-434). -/
def generateOrPatternChoices (ctx : Ctx) (text : List Char)
    (isInternalLink : Bool) : List Choice :=
  let balanced := extractBalancedPatterns text
  let orMatches := balanced.filter (fun m => containsSep m.content)
  if orMatches.isEmpty then
    [⟨s2l "Open", (replacePatterns ctx text isInternalLink).1, [], []⟩]
  else
    let activeReplacements := getActiveLinkReplacements ctx
    let allOptionGroups := orMatches.map
      (fun m => (splitSep m.content).map processOption)
    let combinations := generateCombinations allOptionGroups
    combinations.map (fun combination =>
      let processedText := (orMatches.zip combination).foldl
        (fun acc mo => replaceAll mo.1.matchText mo.2 acc) text
      let processedUrl := (replacePatterns ctx processedText isInternalLink).1
      let keysInOption := combination.flatMap extractKeysFromPattern
      let label := List.intercalate (s2l " + ") combination
      let firstOption := combination.headD []
      let value :=
        match extractKeysFromPattern firstOption with
        | [] => firstOption
        | k :: _ => (findCI activeReplacements k).getD firstOption
      ⟨label, processedUrl, value, keysInOption⟩)

/-- Outcome of the overridden `openLinkText` (part_001 lines 550-627) for
an internal link. -/
inductive InvokeResult where
  | allSuppressed
  | openDirect (url : List Char)
  | choiceModal (choices : List Choice)
  | propertyFailed
deriving DecidableEq

/-- The internal-link invocation path (part_001 lines 550-627): with an
OR pattern, expand, filter out candidates referencing ignored keys, then
fail / open directly / present the filtered choices; without an OR
pattern, resolve and cancel on a property error, otherwise open the
processed link (the pass-through branch opens the unchanged text, which
equals the processed text there). -/
def invokeInternal (ctx : Ctx) (linktext : List Char) : InvokeResult :=
  if hasOrPattern linktext then
    let choices := generateOrPatternChoices ctx linktext true
    let filteredChoices := choices.filter
      (fun choice => !(choice.keys.any (fun k => isKeyIgnored ctx k)))
    match filteredChoices with
    | [] => .allSuppressed
    | [choice] => .openDirect choice.url
    | cs => .choiceModal cs
  else
    let processed := replacePatterns ctx linktext true
    if processed.2 then .propertyFailed
    else .openDirect processed.1

/-- The per-candidate channel offer of the url-menu handler, shared by
the OR-pattern branch (part_001 lines 697 and 712) and the
single-pattern branch (lines 749 and 764): the webviewer item appears
when the webviewer is available and the preference allows it; the
external item appears when the preference allows it or the webviewer is
unavailable. -/
def offeredChannels (hasWebviewerOption : Bool) (pref : OpenInPreference) :
    OpenInPreference :=
  ⟨hasWebviewerOption && pref.webviewer,
   pref.external || !hasWebviewerOption⟩

theorem collectSpan_not_closed_rest (t : List Char) (d : Nat)
    (h : (collectSpan t d).closed = false) : (collectSpan t d).rest = [] := by
  induction t generalizing d with
  | nil => rfl
  | cons c rest ih =>
    simp only [collectSpan] at h ⊢
    by_cases h1 : c = lbrace
    · simp only [if_pos h1] at h ⊢
      exact ih _ h
    · simp only [if_neg h1] at h ⊢
      by_cases h2 : c = rbrace
      · simp only [if_pos h2] at h ⊢
        by_cases h3 : d = 1
        · simp [if_pos h3] at h
        · simp only [if_neg h3] at h ⊢
          exact ih _ h
      · simp only [if_neg h2] at h ⊢
        exact ih _ h

theorem hasOrPatternAux_nil (f : Nat) : hasOrPatternAux f [] = false := by
  cases f <;> rfl

theorem hop_eq_scan (fuel : Nat) : ∀ t : List Char,
    hasOrPatternAux fuel t =
      (((scanSpans fuel t).1.any fun p => containsSep p.content) ||
        ((scanSpans fuel t).2.map containsSep).getD false) := by
  induction fuel with
  | zero => intro t; rfl
  | succ f ih =>
    intro t
    match t with
    | [] => rfl
    | [c] => rfl
    | c1 :: c2 :: rest =>
      simp only [hasOrPatternAux, scanSpans]
      by_cases h : c1 = '$' ∧ c2 = lbrace
      · rw [if_pos h, if_pos h]
        cases hb : (collectSpan rest 1).closed
        · simp only [Bool.false_eq_true, if_false]
          by_cases hs : containsSep (collectSpan rest 1).content
          · simp [hs]
          · simp only [hs, Bool.false_eq_true, if_false]
            rw [collectSpan_not_closed_rest _ _ hb, hasOrPatternAux_nil]
            simp [hs]
        · simp only [if_true]
          by_cases hs : containsSep (collectSpan rest 1).content
          · simp [hs]
          · simp only [hs, Bool.false_eq_true, if_false, List.any_cons,
              Bool.false_or]
            rw [ih]
        -- order of cases: false first, then true
      · rw [if_neg h, if_neg h]
        exact ih _

theorem generateCombinations_cons (g : List (List Char))
    (gs : List (List (List Char))) :
    generateCombinations (g :: gs) =
      g.flatMap (fun item =>
        (generateCombinations gs).map (fun combination => item :: combination)) := by
  cases gs with
  | nil =>
    show g.map (fun item => [item]) = _
    induction g with
    | nil => rfl
    | cons x xs ih =>
      simp only [generateCombinations, List.flatMap_cons, List.map_cons,
        List.map_nil, List.singleton_append] at ih ⊢
      rw [ih]
  | cons h t => rfl

theorem generateCombinations_length (gs : List (List (List Char))) :
    (generateCombinations gs).length = (gs.map List.length).prod := by
  induction gs with
  | nil => rfl
  | cons g gs ih =>
    rw [generateCombinations_cons, List.length_flatMap]
    simp only [Function.comp_def, List.length_map]
    rw [List.map_const', List.sum_replicate, smul_eq_mul, ih]
    simp [List.prod_cons, Nat.mul_comm]

theorem replaceLoop_nil (ctx : Ctx) (i : Bool) (f : Nat) (flag : Bool) :
    replaceLoop ctx i f [] flag = ([], flag) := by
  cases f <;> rfl

theorem breakAtBrace_append (key rest : List Char) (h : rbrace ∉ key) :
    breakAtBrace (key ++ rbrace :: rest) = (key, some rest) := by
  induction key with
  | nil => simp [breakAtBrace]
  | cons c cs ih =>
    have hcne : c ≠ rbrace := fun hc => h (by rw [hc]; exact List.mem_cons_self _ _)
    simp only [List.cons_append, breakAtBrace, List.append_eq]
    rw [if_neg hcne, ih (fun hm => h (List.mem_cons_of_mem _ hm))]

theorem replacePatterns_span (ctx : Ctx) (i : Bool) (key : List Char)
    (hne : key ≠ []) (hbr : rbrace ∉ key) :
    replacePatterns ctx ('$' :: lbrace :: (key ++ [rbrace])) i =
      applyKey ctx i key false := by
  have hb : breakAtBrace (key ++ [rbrace]) = (key, some []) :=
    breakAtBrace_append key [] hbr
  unfold replacePatterns
  simp only [replaceLoop]
  simp [hb, hne, replaceLoop_nil]

theorem generateOrPatternChoices_length (ctx : Ctx) (t : List Char) (i : Bool) :
    (generateOrPatternChoices ctx t i).length =
      (((extractBalancedPatterns t).filter fun m => containsSep m.content).map
        fun m => (splitSep m.content).length).prod := by
  unfold generateOrPatternChoices
  by_cases h :
      ((extractBalancedPatterns t).filter fun m => containsSep m.content).isEmpty
  · rw [List.isEmpty_iff] at h
    simp [h]
  · simp only [h, Bool.false_eq_true, if_false, List.length_map,
      generateCombinations_length, List.map_map, Function.comp_def]

theorem recordGet_eq_none_of_not_mem (r : List (List Char × List Char))
    (q : List Char) (h : q ∉ recordKeys r) : recordGet r q = none := by
  induction r with
  | nil => rfl
  | cons e r ih =>
    simp only [recordKeys, List.map_cons, List.mem_cons, not_or] at h
    have hne : e.1 ≠ q := fun he => h.1 he.symm
    simp only [recordGet, if_neg hne]
    exact ih (by simpa [recordKeys] using h.2)

theorem recordGet_append (r s : List (List Char × List Char)) (q : List Char) :
    recordGet (r ++ s) q =
      match recordGet r q with
      | some v => some v
      | none => recordGet s q := by
  induction r with
  | nil => rfl
  | cons e r ih =>
    simp only [List.cons_append, recordGet]
    by_cases he : e.1 = q
    · simp [he]
    · simp [he, ih]

theorem recordGet_map_other (r : List (List Char × List Char))
    (k v q : List Char) (hq : q ≠ k) :
    recordGet (r.map (fun e => if e.1 = k then (k, v) else e)) q =
      recordGet r q := by
  induction r with
  | nil => rfl
  | cons e r ih =>
    simp only [List.map_cons, recordGet]
    by_cases he : e.1 = k
    · simp only [if_pos he, recordGet]
      rw [if_neg (fun hk => hq hk.symm), if_neg (fun hh => hq (he ▸ hh).symm)]
      exact ih
    · simp only [if_neg he, recordGet, ih]

theorem recordGet_map_self (r : List (List Char × List Char))
    (k v : List Char) (hk : k ∈ recordKeys r) :
    recordGet (r.map (fun e => if e.1 = k then (k, v) else e)) k = some v := by
  induction r with
  | nil => simp [recordKeys] at hk
  | cons e r ih =>
    simp only [List.map_cons, recordGet]
    by_cases he : e.1 = k
    · simp [he, recordGet]
    · simp only [if_neg he, recordGet, if_neg he]
      exact ih (by
        simp only [recordKeys, List.map_cons, List.mem_cons] at hk
        exact hk.resolve_left (fun hh => he hh.symm))

theorem any_beq_iff_mem_keys (r : List (List Char × List Char)) (k : List Char) :
    r.any (fun e => e.1 == k) = true ↔ k ∈ recordKeys r := by
  simp only [List.any_eq_true, beq_iff_eq, recordKeys, List.mem_map]

theorem recordGet_recordSet (r : List (List Char × List Char))
    (k v q : List Char) :
    recordGet (recordSet r k v) q =
      if q = k then some v else recordGet r q := by
  unfold recordSet
  by_cases hany : r.any (fun e => e.1 == k) = true
  · simp only [hany, if_true]
    by_cases hq : q = k
    · rw [if_pos hq, hq, recordGet_map_self r k v ((any_beq_iff_mem_keys r k).mp hany)]
    · rw [recordGet_map_other r k v q hq, if_neg hq]
  · simp only [hany, Bool.false_eq_true, if_false]
    rw [recordGet_append]
    have hk : k ∉ recordKeys r := fun hm => hany ((any_beq_iff_mem_keys r k).mpr hm)
    by_cases hq : q = k
    · rw [if_pos hq, hq, recordGet_eq_none_of_not_mem r k hk]
      simp [recordGet]
    · rw [if_neg hq]
      cases hg : recordGet r q with
      | some v' => simp
      | none => simp [recordGet, Ne.symm hq]

theorem recordKeys_recordSet (r : List (List Char × List Char))
    (k v : List Char) :
    recordKeys (recordSet r k v) =
      if r.any (fun e => e.1 == k) then recordKeys r else recordKeys r ++ [k] := by
  unfold recordSet
  by_cases hany : r.any (fun e => e.1 == k) = true
  · simp only [hany, if_true, recordKeys, List.map_map]
    apply List.map_congr_left
    intro e _
    by_cases he : e.1 = k
    · simp [he]
    · simp [he]
  · simp [hany, recordKeys]

theorem nodup_recordKeys_recordSet (r : List (List Char × List Char))
    (k v : List Char) (h : (recordKeys r).Nodup) :
    (recordKeys (recordSet r k v)).Nodup := by
  rw [recordKeys_recordSet]
  by_cases hany : r.any (fun e => e.1 == k) = true
  · simpa [hany] using h
  · simp only [hany, Bool.false_eq_true, if_false]
    have hk : k ∉ recordKeys r := fun hm => hany ((any_beq_iff_mem_keys r k).mpr hm)
    simp [List.nodup_append, h, hk]

theorem nodup_recordKeys_spreadMerge (base overlay : List (List Char × List Char))
    (h : (recordKeys base).Nodup) :
    (recordKeys (spreadMerge base overlay)).Nodup := by
  induction overlay generalizing base with
  | nil => exact h
  | cons e p ih => exact ih _ (nodup_recordKeys_recordSet _ _ _ h)

theorem recordGet_spreadMerge (base overlay : List (List Char × List Char))
    (q : List Char) (hnd : (recordKeys overlay).Nodup) :
    recordGet (spreadMerge base overlay) q =
      match recordGet overlay q with
      | some v => some v
      | none => recordGet base q := by
  induction overlay generalizing base with
  | nil => rfl
  | cons e p ih =>
    simp only [recordKeys, List.map_cons, List.nodup_cons] at hnd
    have hstep : spreadMerge base (e :: p) = spreadMerge (recordSet base e.1 e.2) p := rfl
    rw [hstep, ih _ hnd.2]
    by_cases hq : q = e.1
    · have hp : recordGet p e.1 = none := by
        rw [← hq]
        exact recordGet_eq_none_of_not_mem p q
          (by rw [hq]; simpa [recordKeys] using hnd.1)
      simp [hp, recordGet_recordSet, recordGet, hq]
    · have hne : e.1 ≠ q := fun hh => hq hh.symm
      simp only [recordGet, if_neg hne]
      cases hg : recordGet p q with
      | some v => simp [hg]
      | none => simp [hg, recordGet_recordSet, hq]

theorem recordGet_filter_sentinel (r : List (List Char × List Char))
    (q : List Char) (hnd : (recordKeys r).Nodup) :
    recordGet (r.filter fun e => !(e.2 == ignoreSentinel)) q =
      match recordGet r q with
      | some v => if v = ignoreSentinel then none else some v
      | none => none := by
  induction r with
  | nil => rfl
  | cons e r ih =>
    simp only [recordKeys, List.map_cons, List.nodup_cons] at hnd
    by_cases hs : e.2 = ignoreSentinel
    · simp only [List.filter_cons, hs, beq_self_eq_true, Bool.not_true,
        Bool.false_eq_true, if_false]
      by_cases hq : e.1 = q
      · have hq2 : q ∉ recordKeys (r.filter fun e => !(e.2 == ignoreSentinel)) := by
          intro hm
          apply hnd.1
          rw [hq]
          simp only [recordKeys, List.mem_map] at hm ⊢
          obtain ⟨x, hx, hxk⟩ := hm
          exact ⟨x, List.mem_of_mem_filter hx, hxk⟩
        rw [recordGet_eq_none_of_not_mem _ _ hq2]
        simp [recordGet, hq, hs]
      · rw [ih hnd.2]
        simp [recordGet, hq]
    · have hb : (!(e.2 == ignoreSentinel)) = true := by simp [hs]
      simp only [List.filter_cons, hb, if_true, recordGet]
      by_cases hq : e.1 = q
      · simp [hq, hs]
      · simp only [if_neg hq]
        exact ih hnd.2

theorem findCI_congr {α : Type} (table : List (List Char × α)) (a b : List Char)
    (h : lower a = lower b) : findCI table a = findCI table b := by
  induction table with
  | nil => rfl
  | cons e r ih => simp only [findCI, h, ih]

theorem findCI_of_unique (table : List (List Char × List Char))
    (key v : List Char) (hget : recordGet table key = some v)
    (huniq : ∀ e ∈ table, lower e.1 = lower key → e.1 = key) :
    findCI table key = some v := by
  induction table with
  | nil => simp [recordGet] at hget
  | cons e r ih =>
    by_cases hl : lower e.1 = lower key
    · have he : e.1 = key := huniq e (List.mem_cons_self _ _) hl
      simp only [recordGet, if_pos he] at hget
      have hb : (lower e.1 == lower key) = true := beq_iff_eq.mpr hl
      simp only [findCI, hb, if_true]
      exact hget
    · have hb : (lower e.1 == lower key) = false := by
        simpa using hl
      simp only [findCI, hb, Bool.false_eq_true, if_false]
      have he : e.1 ≠ key := fun hh => hl (by rw [hh])
      simp only [recordGet, if_neg he] at hget
      exact ih hget (fun x hx hlx => huniq x (List.mem_cons_of_mem _ hx) hlx)

theorem mergedPref_loop (ctx : Ctx) (keys : List (List Char)) :
    ∀ w e : Bool,
      keys.foldl
        (fun acc key =>
          ⟨acc.webviewer && (getOpenInPreference ctx key).webviewer,
           acc.external && (getOpenInPreference ctx key).external⟩)
        (⟨w, e⟩ : OpenInPreference) =
      ⟨w && keys.all (fun k => (getOpenInPreference ctx k).webviewer),
       e && keys.all (fun k => (getOpenInPreference ctx k).external)⟩ := by
  induction keys with
  | nil => intro w e; simp
  | cons k ks ih =>
    intro w e
    simp only [List.foldl_cons, ih, List.all_cons, Bool.and_assoc]

/-- Dictionary for the concrete cartesian-product scenario of claim C1. -/
def c1Ctx : Ctx :=
  { defaultLinkReplacements :=
      [(s2l "A", s2l "1"), (s2l "B", s2l "2"), (s2l "C", s2l "3"),
       (s2l "D", s2l "4"), (s2l "E", s2l "5")]
    profileLinkReplacements := none
    openInPreferences := []
    invalidCharReplacement := s2l " "
    fileState := FileState.noValidFile }

/-- The template of the concrete scenario of claim C1. -/
def c1Template : List Char := s2l "$\x7bA,,B\x7d$\x7bC,,D,,E\x7d"

/-- Claim C1: the expander yields exactly k1 x ... x kN candidates for N
top-level alternation spans with option counts k1..kN; the cartesian
product makes the first span the outermost (slowest-varying) dimension
and the last span the fastest; and on `A,,B x C,,D,,E` (dictionary values
1..5) it yields exactly the six candidates A+C, A+D, A+E, B+C, B+D, B+E
in that order. -/
theorem c1_cartesian_product :
    (∀ (ctx : Ctx) (t : List Char) (i : Bool),
      (generateOrPatternChoices ctx t i).length =
        (((extractBalancedPatterns t).filter fun m => containsSep m.content).map
          fun m => (splitSep m.content).length).prod) ∧
    (∀ (g : List (List Char)) (gs : List (List (List Char))),
      generateCombinations (g :: gs) =
        g.flatMap fun item =>
          (generateCombinations gs).map fun combination => item :: combination) ∧
    ((generateOrPatternChoices c1Ctx c1Template false).map Choice.url =
      [s2l "13", s2l "14", s2l "15", s2l "23", s2l "24", s2l "25"]) ∧
    ((generateOrPatternChoices c1Ctx c1Template false).map Choice.label =
      [s2l "$\x7bA\x7d + $\x7bC\x7d", s2l "$\x7bA\x7d + $\x7bD\x7d",
       s2l "$\x7bA\x7d + $\x7bE\x7d", s2l "$\x7bB\x7d + $\x7bC\x7d",
       s2l "$\x7bB\x7d + $\x7bD\x7d", s2l "$\x7bB\x7d + $\x7bE\x7d"]) :=
  ⟨generateOrPatternChoices_length, generateCombinations_cons,
    by decide, by decide⟩

/-- Claim C3 (amended): hasOrPattern returns true exactly when some
scanned span's raw content contains `,,` anywhere in it — including a
`,,` lying inside a nested span's interior — where the scanned spans are
the balanced top-level spans plus a trailing unterminated span, whose
partial content the loop also inspects. -/
theorem c3_amended_detection : ∀ t : List Char,
    hasOrPattern t =
      (((extractBalancedPatterns t).any fun p => containsSep p.content) ||
        ((openTail t).map containsSep).getD false) :=
  fun t => hop_eq_scan (t.length + 1) t

/-- Definition following the spec's words for claim C3 (section 3,
"Alternation Group"): the content contains `,,` outside of any nested
span's interior, read here as: at balanced-brace depth zero within the
content. -/
def specSepOutsideNested : List Char → Nat → Bool
  | c1 :: c2 :: rest, d =>
    if c1 = ',' ∧ c2 = ',' ∧ d = 0 then true
    else if c1 = lbrace then specSepOutsideNested (c2 :: rest) (d + 1)
    else if c1 = rbrace then specSepOutsideNested (c2 :: rest) (d - 1)
    else specSepOutsideNested (c2 :: rest) d
  | _, _ => false

/-- The counterexample text for claim C3: its only top-level span has the
content `x${a,,b}y`, whose `,,` lies inside the nested span. -/
def c3Text : List Char := s2l "$\x7bx$\x7ba,,b\x7dy\x7d"

/-- Claim C3 (counterexample): hasOrPattern is true on a text whose only
top-level span has its `,,` exclusively inside a nested span's interior,
contradicting the claimed "outside of any nested span's interior"
restriction. -/
theorem c3_counterexample :
    hasOrPattern c3Text = true ∧
    ((extractBalancedPatterns c3Text).any
      fun p => specSepOutsideNested p.content 0) = false := by decide

/-- Claim C7: the merged open-in preference is the per-channel AND over
the key list of each key's stored preference (default both-true for keys
with no stored preference); the empty key list yields both-true. -/
theorem c7_merged_preference :
    (∀ (ctx : Ctx) (keys : List (List Char)),
      getMergedOpenInPreference ctx keys =
        ⟨keys.all fun k => (getOpenInPreference ctx k).webviewer,
         keys.all fun k => (getOpenInPreference ctx k).external⟩) ∧
    (∀ ctx : Ctx, getMergedOpenInPreference ctx [] = ⟨true, true⟩) := by
  constructor
  · intro ctx keys
    unfold getMergedOpenInPreference
    rw [mergedPref_loop]
    simp
  · intro ctx
    rfl

/-- The bare-word template of claim C9. -/
def c9BareTemplate : List Char := s2l "$\x7bone,,two\x7d"

/-- The explicitly wrapped template of claim C9. -/
def c9WrappedTemplate : List Char := s2l "$\x7b$\x7bone\x7d,,$\x7btwo\x7d\x7d"

/-- Claim C9: bare-word options are wrapped as placeholders before
expansion, so the bare template and the explicitly wrapped template
produce identical candidate lists — for every context (in particular
whenever `one` and `two` are dictionary keys) and for both link kinds. -/
theorem c9_sugar_equivalence :
    ∀ (ctx : Ctx) (i : Bool),
      generateOrPatternChoices ctx c9BareTemplate i =
        generateOrPatternChoices ctx c9WrappedTemplate i := by
  intro ctx i
  rfl

/-- Claim C2 (amended): when the webviewer channel is unavailable, the
external channel is always offered regardless of the merged preference;
consequently the set of offered channels is non-empty exactly when the
webviewer is unavailable or the merged preference enables at least one
channel — with the webviewer available and a merged preference disabling
both channels, no channel is offered. -/
theorem c2_channel_fallback :
    ∀ (hasW : Bool) (pref : OpenInPreference),
      (offeredChannels false pref).external = true ∧
      ((offeredChannels hasW pref).webviewer ||
          (offeredChannels hasW pref).external) =
        (!hasW || pref.webviewer || pref.external) := by
  intro hasW pref
  cases pref with
  | mk w e => cases hasW <;> cases w <;> cases e <;> exact ⟨rfl, rfl⟩

/-- Context for the claim C2 counterexample: key A is webviewer-only and
key B is external-only, both reachable by one candidate. -/
def c2Ctx : Ctx :=
  { defaultLinkReplacements :=
      [(s2l "A", s2l "1"), (s2l "B", s2l "2"), (s2l "C", s2l "3"),
       (s2l "D", s2l "4")]
    profileLinkReplacements := none
    openInPreferences :=
      [(s2l "A", ⟨true, false⟩), (s2l "B", ⟨false, true⟩)]
    invalidCharReplacement := s2l " "
    fileState := FileState.noValidFile }

/-- The template of the claim C2 counterexample. -/
def c2Template : List Char := s2l "$\x7bA,,C\x7d$\x7bB,,D\x7d"

/-- Claim C2 (counterexample): a candidate that survives suppression
filtering and references a webviewer-only key together with an
external-only key has the merged preference both-false, and with the
webviewer available no channel at all is offered for it — the offered
set is empty. -/
theorem c2_counterexample :
    ((generateOrPatternChoices c2Ctx c2Template false).filter
        (fun choice => !(choice.keys.any (fun k => isKeyIgnored c2Ctx k)))).head?.map
        Choice.keys = some [s2l "A", s2l "B"] ∧
    getMergedOpenInPreference c2Ctx [s2l "A", s2l "B"] = ⟨false, false⟩ ∧
    offeredChannels true (getMergedOpenInPreference c2Ctx [s2l "A", s2l "B"]) =
      ⟨false, false⟩ := by decide

/-- Claim C4: the effective dictionary is defaults overlaid by the
profile override — override wins on exact-key collision — with every key
whose post-overlay value is the sentinel removed, so its lookup behaves
exactly like a never-defined key. -/
theorem c4_effective_dictionary (ctx : Ctx) (q : List Char)
    (hd : (recordKeys ctx.defaultLinkReplacements).Nodup)
    (hp : (recordKeys (ctx.profileLinkReplacements.getD [])).Nodup) :
    recordGet (getActiveLinkReplacements ctx) q =
      match
        (match recordGet (ctx.profileLinkReplacements.getD []) q with
         | some v => some v
         | none => recordGet ctx.defaultLinkReplacements q)
      with
      | some v => if v = ignoreSentinel then none else some v
      | none => none := by
  unfold getActiveLinkReplacements
  rw [recordGet_filter_sentinel _ _ (nodup_recordKeys_spreadMerge _ _ hd),
    recordGet_spreadMerge _ _ _ hp]

/-- Context for the claim C4 witness: default dictionary with two keys,
profile override suppressing one of them. -/
def c4Ctx : Ctx :=
  { defaultLinkReplacements :=
      [(s2l "RCLONE", s2l "x"), (s2l "DOWNLOADS", s2l "y")]
    profileLinkReplacements := some [(s2l "RCLONE", s2l "@@IGNORE@@")]
    openInPreferences := []
    invalidCharReplacement := s2l " "
    fileState := FileState.noValidFile }

/-- Witness for claim C4: the suppressed key RCLONE is absent from the
effective dictionary while DOWNLOADS keeps its default value. -/
theorem c4_witness :
    recordGet (getActiveLinkReplacements c4Ctx) (s2l "RCLONE") = none ∧
    recordGet (getActiveLinkReplacements c4Ctx) (s2l "DOWNLOADS") =
      some (s2l "y") := by
  have h1 := c4_effective_dictionary c4Ctx (s2l "RCLONE") (by decide) (by decide)
  have h2 := c4_effective_dictionary c4Ctx (s2l "DOWNLOADS") (by decide) (by decide)
  refine ⟨?_, ?_⟩
  · rw [h1]; decide
  · rw [h2]; decide

/-- The template text `${L:p}` for a property name p (claim C5). -/
def propertySpan (p : List Char) : List Char :=
  '$' :: lbrace :: (('L' :: ':' :: p) ++ [rbrace])

/-- Claim C5: resolving `${L:p}` with frontmatter present but lacking p
(case-insensitively) substitutes the empty string and raises the
property-error flag; with no frontmatter, or no valid markdown document,
the span is echoed verbatim and the flag stays down; and the flag is
reset at the start of every call, so the prior flag value never leaks
into a result. -/
theorem c5_property_error (ctx ctx' : Ctx)
    (props : List (List Char × List Char)) (p : List Char)
    (hbr : rbrace ∉ p)
    (hfm : ctx.fileState = FileState.frontmatter props)
    (hmiss : findCI props p = none)
    (hnofm : ctx'.fileState = FileState.noFrontmatter ∨
      ctx'.fileState = FileState.noValidFile) :
    (∀ i : Bool, replacePatterns ctx (propertySpan p) i = ([], true)) ∧
    (∀ i : Bool,
      replacePatterns ctx' (propertySpan p) i = (propertySpan p, false)) ∧
    (∀ (text : List Char) (i priorFlag : Bool),
      replacePatternsFlag ctx text i priorFlag = replacePatterns ctx text i) := by
  have hbr2 : rbrace ∉ 'L' :: ':' :: p := by
    intro hm
    simp only [List.mem_cons] at hm
    rcases hm with h | h | h
    · exact absurd h (by decide)
    · exact absurd h (by decide)
    · exact hbr h
  have hL : startsWithLColon ('L' :: ':' :: p) = true := by
    simp [startsWithLColon]
  refine ⟨?_, ?_, fun _ _ _ => rfl⟩
  · intro i
    unfold propertySpan
    rw [replacePatterns_span ctx i ('L' :: ':' :: p) (by simp) hbr2]
    unfold applyKey
    rw [hL]
    simp only [if_true, List.drop_succ_cons, List.drop_zero, hfm, hmiss]
  · intro i
    unfold propertySpan
    rw [replacePatterns_span ctx' i ('L' :: ':' :: p) (by simp) hbr2]
    unfold applyKey
    rw [hL]
    rcases hnofm with h | h <;> simp only [if_true, h]

/-- Context for the claim C5 witness: frontmatter present with a single
property `today`, which does not match `missing`. -/
def c5CtxWithProps : Ctx :=
  { defaultLinkReplacements := []
    profileLinkReplacements := none
    openInPreferences := []
    invalidCharReplacement := s2l " "
    fileState := FileState.frontmatter [(s2l "today", s2l "v")] }

/-- Context for the claim C5 witness with no frontmatter. -/
def c5CtxNoProps : Ctx :=
  { defaultLinkReplacements := []
    profileLinkReplacements := none
    openInPreferences := []
    invalidCharReplacement := s2l " "
    fileState := FileState.noFrontmatter }

/-- Witness for claim C5 at the property name `missing`. -/
theorem c5_witness :
    replacePatterns c5CtxWithProps (propertySpan (s2l "missing")) true =
      ([], true) ∧
    replacePatterns c5CtxNoProps (propertySpan (s2l "missing")) true =
      (propertySpan (s2l "missing"), false) := by
  have h := c5_property_error c5CtxWithProps c5CtxNoProps
    [(s2l "today", s2l "v")] (s2l "missing") (by decide) rfl (by decide)
    (Or.inl rfl)
  exact ⟨h.1 true, h.2.1 true⟩

/-- Claim C6: for an internal link with alternation, a key is suppressed
exactly when the active profile's override maps it (case-insensitively)
to the sentinel; every candidate referencing a suppressed key is filtered
out; an empty filtered list fails with the all-options-suppressed notice
and no navigation; a single survivor is opened directly with no choice
presented; and two or more survivors are presented as the ordered
filtered choice list. -/
theorem c6_structural_invocation (ctx : Ctx) (t : List Char)
    (h : hasOrPattern t = true) :
    (∀ k, isKeyIgnored ctx k = true ↔
      ∃ reps, ctx.profileLinkReplacements = some reps ∧
        findCI reps k = some ignoreSentinel) ∧
    ((generateOrPatternChoices ctx t true).filter
        (fun choice => !(choice.keys.any fun k => isKeyIgnored ctx k)) = [] →
      invokeInternal ctx t = InvokeResult.allSuppressed) ∧
    (∀ choice, (generateOrPatternChoices ctx t true).filter
        (fun choice => !(choice.keys.any fun k => isKeyIgnored ctx k)) =
          [choice] →
      invokeInternal ctx t = InvokeResult.openDirect choice.url) ∧
    (∀ choice1 choice2 cs, (generateOrPatternChoices ctx t true).filter
        (fun choice => !(choice.keys.any fun k => isKeyIgnored ctx k)) =
          choice1 :: choice2 :: cs →
      invokeInternal ctx t =
        InvokeResult.choiceModal (choice1 :: choice2 :: cs)) := by
  refine ⟨?_, ?_, ?_, ?_⟩
  · intro k
    unfold isKeyIgnored
    cases hp : ctx.profileLinkReplacements with
    | none => simp
    | some reps =>
      cases hf : findCI reps k with
      | none => simp [hf]
      | some v => simp [hf, beq_iff_eq]
  · intro hempty
    unfold invokeInternal
    simp only [h, if_true, hempty]
  · intro choice hone
    unfold invokeInternal
    simp only [h, if_true, hone]
  · intro choice1 choice2 cs hmany
    unfold invokeInternal
    simp only [h, if_true, hmany]

/-- Context for the claim C6 witness: dictionary RCLONE/DOWNLOADS with
RCLONE suppressed by the profile. -/
def c6Ctx : Ctx :=
  { defaultLinkReplacements :=
      [(s2l "RCLONE", s2l "x"), (s2l "DOWNLOADS", s2l "y")]
    profileLinkReplacements := some [(s2l "RCLONE", s2l "@@IGNORE@@")]
    openInPreferences := []
    invalidCharReplacement := s2l " "
    fileState := FileState.noValidFile }

/-- The template of the claim C6 witness. -/
def c6Template : List Char := s2l "$\x7bRCLONE,,DOWNLOADS\x7d"

/-- Witness for claim C6: with RCLONE suppressed, the single surviving
candidate resolves to `y` and is opened directly. -/
theorem c6_witness :
    hasOrPattern c6Template = true ∧
    invokeInternal c6Ctx c6Template = InvokeResult.openDirect (s2l "y") := by
  refine ⟨by decide, ?_⟩
  have h := (c6_structural_invocation c6Ctx c6Template (by decide)).2.2.1
    ⟨s2l "$\x7bDOWNLOADS\x7d", s2l "y", s2l "y", [s2l "DOWNLOADS"]⟩ (by decide)
  exact h

/-- Claim C10: on the alternation path the property-error flag is never
consulted — the invocation never fails with the property-resolution
cancellation, and any surviving candidate is opened or offered even if
resolving it raised the flag. -/
theorem c10_alternation_ignores_property_errors (ctx : Ctx) (t : List Char)
    (h : hasOrPattern t = true) :
    invokeInternal ctx t ≠ InvokeResult.propertyFailed ∧
    (∀ choice cs,
      (generateOrPatternChoices ctx t true).filter
        (fun choice => !(choice.keys.any fun k => isKeyIgnored ctx k)) =
          choice :: cs →
      invokeInternal ctx t = InvokeResult.openDirect choice.url ∨
      invokeInternal ctx t = InvokeResult.choiceModal (choice :: cs)) := by
  constructor
  · unfold invokeInternal
    simp only [h, if_true]
    cases hf : (generateOrPatternChoices ctx t true).filter
        (fun choice => !(choice.keys.any fun k => isKeyIgnored ctx k)) with
    | nil => simp
    | cons c cs =>
      cases cs with
      | nil => simp
      | cons c2 cs2 => simp
  · intro choice cs hfil
    unfold invokeInternal
    simp only [h, if_true, hfil]
    cases cs with
    | nil => exact Or.inl rfl
    | cons c2 cs2 => exact Or.inr rfl

/-- Context for the claim C10 witness: frontmatter present but lacking
the property `missing`, and dictionary key A. -/
def c10Ctx : Ctx :=
  { defaultLinkReplacements := [(s2l "A", s2l "a")]
    profileLinkReplacements := none
    openInPreferences := []
    invalidCharReplacement := s2l " "
    fileState := FileState.frontmatter [(s2l "today", s2l "x")] }

/-- The template of the claim C10 witness: one option raises the
property-error flag when resolved, the other is a plain dictionary key. -/
def c10Template : List Char := s2l "$\x7b$\x7bL:missing\x7d,,$\x7bA\x7d\x7d"

/-- Witness for claim C10: resolving the first candidate raises the flag
(its url is the empty substitution), yet both candidates are offered in
the choice modal and the invocation does not fail. -/
theorem c10_witness :
    hasOrPattern c10Template = true ∧
    (replacePatterns c10Ctx (s2l "$\x7bL:missing\x7d") true).2 = true ∧
    invokeInternal c10Ctx c10Template ≠ InvokeResult.propertyFailed ∧
    invokeInternal c10Ctx c10Template = InvokeResult.choiceModal
      [⟨s2l "$\x7bL:missing\x7d", [], s2l "$\x7bL:missing\x7d", []⟩,
       ⟨s2l "$\x7bA\x7d", s2l "a", s2l "a", [s2l "A"]⟩] := by
  have h := c10_alternation_ignores_property_errors c10Ctx c10Template (by decide)
  refine ⟨by decide, by decide, h.1, ?_⟩
  have h2 := h.2 ⟨s2l "$\x7bL:missing\x7d", [], s2l "$\x7bL:missing\x7d", []⟩
    [⟨s2l "$\x7bA\x7d", s2l "a", s2l "a", [s2l "A"]⟩] (by decide)
  rcases h2 with h2 | h2
  · exact absurd h2 (by decide)
  · exact h2

/-- Claim C8 (amended): resolving any casing variant of a key present in
the effective dictionary returns the value of the first dictionary entry
whose lower-cased key matches; this is the value stored under KEY
whenever no other key of the effective dictionary differs from KEY only
by case.  The variant is any non-empty key content without a closing
brace that does not start with the literal `L:` prefix. -/
theorem c8_case_insensitive_lookup (ctx : Ctx) (key variant v : List Char)
    (hget : recordGet (getActiveLinkReplacements ctx) key = some v)
    (huniq : ∀ e ∈ getActiveLinkReplacements ctx,
      lower e.1 = lower key → e.1 = key)
    (hlow : lower variant = lower key)
    (hne : variant ≠ [])
    (hbr : rbrace ∉ variant)
    (hL : startsWithLColon variant = false) :
    replacePatterns ctx ('$' :: lbrace :: (variant ++ [rbrace])) false =
      (v, false) := by
  rw [replacePatterns_span ctx false variant hne hbr]
  unfold applyKey
  rw [hL]
  simp only [Bool.false_eq_true, if_false]
  rw [findCI_congr _ _ _ hlow,
    findCI_of_unique _ _ _ hget huniq]

/-- Context for the claim C8 witness: the single dictionary key DEV. -/
def c8Ctx : Ctx :=
  { defaultLinkReplacements := [(s2l "DEV", s2l "x")]
    profileLinkReplacements := none
    openInPreferences := []
    invalidCharReplacement := s2l " "
    fileState := FileState.noValidFile }

/-- Witness for claim C8: the casing variants dev, DEV and Dev of the
dictionary key DEV all resolve to its stored value. -/
theorem c8_witness :
    replacePatterns c8Ctx ('$' :: lbrace :: (s2l "dev" ++ [rbrace])) false =
      (s2l "x", false) ∧
    replacePatterns c8Ctx ('$' :: lbrace :: (s2l "DEV" ++ [rbrace])) false =
      (s2l "x", false) ∧
    replacePatterns c8Ctx ('$' :: lbrace :: (s2l "Dev" ++ [rbrace])) false =
      (s2l "x", false) :=
  ⟨c8_case_insensitive_lookup c8Ctx (s2l "DEV") (s2l "dev") (s2l "x")
      (by decide) (by decide) (by decide) (by decide) (by decide) (by decide),
   c8_case_insensitive_lookup c8Ctx (s2l "DEV") (s2l "DEV") (s2l "x")
      (by decide) (by decide) (by decide) (by decide) (by decide) (by decide),
   c8_case_insensitive_lookup c8Ctx (s2l "DEV") (s2l "Dev") (s2l "x")
      (by decide) (by decide) (by decide) (by decide) (by decide) (by decide)⟩

/-- Context for the claim C8 counterexample: the effective dictionary
holds two distinct keys DEV and dev differing only by case. -/
def c8DupCtx : Ctx :=
  { defaultLinkReplacements := [(s2l "DEV", s2l "a"), (s2l "dev", s2l "b")]
    profileLinkReplacements := none
    openInPreferences := []
    invalidCharReplacement := s2l " "
    fileState := FileState.noValidFile }

/-- Claim C8 (counterexample): with both DEV and dev in the effective
dictionary, resolving the template for the key dev — itself a casing
variant of dev — yields the value stored under DEV, the first
case-insensitive match, not the value stored under dev. -/
theorem c8_counterexample :
    recordGet (getActiveLinkReplacements c8DupCtx) (s2l "dev") =
      some (s2l "b") ∧
    replacePatterns c8DupCtx ('$' :: lbrace :: (s2l "dev" ++ [rbrace])) false =
      (s2l "a", false) ∧
    s2l "a" ≠ s2l "b" := by
  refine ⟨by decide, by decide, by decide⟩
